import Mathlib

/-!
Verification of the in-memory query/aggregation core of the
lego-collection-explorer application (src/App.tsx).

The TypeScript core is shallowly embedded:
JavaScript numbers carrying monetary values are modelled as rationals
(with null as Option.none), record counts and years as naturals, and the
one place where a NaN / Infinity division artifact can arise is modelled
by an explicit JSNum type.  The insertion-order Map used by the theme
aggregator is modelled as an association list with JS Map semantics
(set on an existing key keeps its position, set on a fresh key appends).
Array.prototype.sort with a consistent comparator is modelled as a stable
insertion sort (the stable sorted permutation is unique, so any stable
sort models the ECMAScript contract).  The locale-aware, case-insensitive
name comparison (localeCompare with sensitivity base) is modelled as
code-point order on lower-cased names, which is a total preorder like any
Intl collator.
-/

/-- Model of the retailPrice field: up to four currency-keyed optional values. -/
structure RetailPrice where
  us : Option ℚ
  uk : Option ℚ
  ca : Option ℚ
  de : Option ℚ
deriving DecidableEq

/-- Model of the bricklink secondary-market price field. -/
structure Bricklink where
  new : Option ℚ
  used : Option ℚ
deriving DecidableEq

/-- Model of the skus identifier field. -/
structure Skus where
  us : Option String
  eu : Option String
  ean : Option String
  upc : Option String
deriving DecidableEq

/-- Model of the dimensions field. -/
structure Dimensions where
  width : Option ℚ
  height : Option ℚ
  depth : Option ℚ
  weight : Option ℚ
deriving DecidableEq

/-- Model of the LegoSet record type from App.tsx. -/
structure LegoSet where
  id : String
  name : String
  number : String
  variant : String
  theme : String
  subtheme : Option String
  themeGroup : Option String
  category : Option String
  availability : Option String
  packaging : Option String
  pieces : Option ℕ
  minifigsCount : ℕ
  minifigs : List String
  yearFrom : ℕ
  retailPrice : RetailPrice
  bricklink : Bricklink
  skus : Skus
  dimensions : Dimensions
  image : Option String
  thumb : Option String
deriving DecidableEq

/-- Model of the ThemeStat record type from App.tsx. -/
structure ThemeStat where
  theme : String
  sets : ℕ
  value : ℚ
  earliestYear : ℕ
  latestYear : ℕ
deriving DecidableEq

/-- The three sort options of the SortOption type. -/
inductive SortOption where
  | retail
  | year
  | name
deriving DecidableEq

/-- Number.MAX_SAFE_INTEGER, the initial earliestYear accumulator. -/
def maxSafeInteger : ℕ := 9007199254740991

/-- preferredRetail: uk then us then ca then de, the first non-null value
(JS nullish coalescing: a present 0 is kept). -/
def preferredRetail (s : LegoSet) : Option ℚ :=
  match s.retailPrice.uk with
  | some v => some v
  | none =>
    match s.retailPrice.us with
    | some v => some v
    | none =>
      match s.retailPrice.ca with
      | some v => some v
      | none => s.retailPrice.de

/-- yearFromSet: set.yearFrom with JS falsy 0 mapped to 0, which on the
natural-number model is the identity. -/
def yearFromSet (s : LegoSet) : ℕ := s.yearFrom

/-- The grouping key of the aggregator: set.theme, with the falsy empty
string replaced by the reserved key Misc. -/
def groupKey (s : LegoSet) : String := if s.theme = "" then "Misc" else s.theme

/-- The fresh accumulator created when a theme is first discovered. -/
def initStat (k : String) : ThemeStat :=
  { theme := k, sets := 0, value := 0
    earliestYear := maxSafeInteger, latestYear := 0 }

/-- One aggregation step of the themeStats loop body: bump the member
count, add the preferred retail (absent as 0), and fold a truthy
(non-zero) year into the min/max accumulators. -/
def addSet (st : ThemeStat) (s : LegoSet) : ThemeStat :=
  let base := { st with sets := st.sets + 1
                        value := st.value + (preferredRetail s).getD 0 }
  if yearFromSet s = 0 then base
  else { base with earliestYear := min base.earliestYear (yearFromSet s)
                   latestYear := max base.latestYear (yearFromSet s) }

/-- Map.get on the insertion-ordered association-list model of a JS Map. -/
def mapGet (k : String) : List (String × ThemeStat) → Option ThemeStat
  | [] => none
  | (k', v') :: rest => if k' = k then some v' else mapGet k rest

/-- Map.set on the association-list model: replace the value in place when
the key is present, append otherwise (JS Map insertion-order semantics). -/
def mapSet (k : String) (v : ThemeStat) :
    List (String × ThemeStat) → List (String × ThemeStat)
  | [] => [(k, v)]
  | (k', v') :: rest =>
    if k' = k then (k, v) :: rest else (k', v') :: mapSet k v rest

/-- One iteration of the themeStats for-loop over a set. -/
def statStep (m : List (String × ThemeStat)) (s : LegoSet) :
    List (String × ThemeStat) :=
  mapSet (groupKey s) (addSet ((mapGet (groupKey s) m).getD (initStat (groupKey s))) s) m

/-- The fully folded theme map, in discovery order. -/
def statMap (sets : List LegoSet) : List (String × ThemeStat) :=
  sets.foldl statStep []

/-- The post-loop mapping that turns a never-updated earliestYear
accumulator (still MAX_SAFE_INTEGER) into the 0 sentinel. -/
def fixEarliest (st : ThemeStat) : ThemeStat :=
  if st.earliestYear = maxSafeInteger then { st with earliestYear := 0 } else st

/-- Generic stable insertion step: x is placed before the first element it
must precede under the boolean relation le. -/
def insertBy {α : Type} (le : α → α → Bool) (x : α) : List α → List α
  | [] => [x]
  | y :: ys => if le x y then x :: y :: ys else y :: insertBy le x ys

/-- Stable sort modelling Array.prototype.sort with a consistent
comparator: le a b means the comparator on (a, b) is non-positive, so a
may stay before b. -/
def jsSortBy {α : Type} (le : α → α → Bool) : List α → List α
  | [] => []
  | x :: xs => insertBy le x (jsSortBy le xs)

/-- The theme stats in group-discovery order, before the final sort:
Array.from(map.values()) with the earliestYear sentinel mapping applied. -/
def discoveryStats (sets : List LegoSet) : List ThemeStat :=
  ((statMap sets).map Prod.snd).map fixEarliest

/-- themeStats: the discovery-order stats sorted descending by summed
value (comparator (a, b) => b.value - a.value). -/
def computeCategoryStats (sets : List LegoSet) : List ThemeStat :=
  jsSortBy (fun a b => decide (b.value ≤ a.value)) (discoveryStats sets)

/-- ASCII lower-casing of one character, the model of toLowerCase. -/
def lowerChar (c : Char) : Char :=
  if 65 ≤ c.toNat ∧ c.toNat ≤ 90 then Char.ofNat (c.toNat + 32) else c

/-- Lower-casing of a string, the model of String.prototype.toLowerCase. -/
def lowerStr (s : String) : String := String.mk (s.data.map lowerChar)

/-- Substring containment on character lists, the model of
String.prototype.includes. -/
def containsSub (hay pat : List Char) : Bool :=
  match hay, pat with
  | _, [] => true
  | [], _ :: _ => false
  | _ :: t, p :: ps => List.isPrefixOf (p :: ps) hay || containsSub t (p :: ps)

/-- The search haystack of a record: display name and item number joined
with a single space. -/
def haystack (s : LegoSet) : String := s.name ++ " " ++ s.number

/-- The shared text predicate: case-insensitive substring match of the
search text against the haystack. -/
def matchesText (search : String) (s : LegoSet) : Bool :=
  containsSub (lowerStr (haystack s)).data (lowerStr search).data

/-- filteredSets: category predicate (sentinel All Themes passes all,
otherwise exact theme equality) AND text predicate (pass-through only for
the falsy empty search string). -/
def filterRecords (sets : List LegoSet) (activeTheme search : String) :
    List LegoSet :=
  sets.filter fun s =>
    (activeTheme == "All Themes" || s.theme == activeTheme) &&
    (if search == "" then true else matchesText search s)

/-- Whitespace trimming on the character-list model, the model of
String.prototype.trim. -/
def trimWs (s : String) : String :=
  String.mk (((s.data.dropWhile Char.isWhitespace).reverse.dropWhile
    Char.isWhitespace).reverse)

/-- The suggestions effect: empty on a search that trims to the falsy
empty string, otherwise the first 6 text-predicate matches in dataset
order. -/
def suggest (sets : List LegoSet) (search : String) : List LegoSet :=
  if trimWs search == "" then []
  else (sets.filter (matchesText search)).take 6

/-- The preferred retail value with null coalesced to 0, the numeric rank
used by the retail comparator. -/
def retailRank (s : LegoSet) : ℚ := (preferredRetail s).getD 0

/-- The sort key of the name comparator: lower-cased display name
(model of localeCompare with sensitivity base). -/
def nameKey (s : LegoSet) : String := lowerStr s.name

/-- sortedSets: a copy of the records sorted by the selected comparator
(retail and year descending, name ascending case-insensitively). -/
def sortRecords (records : List LegoSet) : SortOption → List LegoSet
  | SortOption.year =>
    jsSortBy (fun a b => decide (yearFromSet b ≤ yearFromSet a)) records
  | SortOption.name =>
    jsSortBy (fun a b => decide (nameKey a ≤ nameKey b)) records
  | SortOption.retail =>
    jsSortBy (fun a b => decide (retailRank b ≤ retailRank a)) records

/-- A JS number that may be a division artifact. -/
inductive JSNum where
  | nan
  | posInf
  | negInf
  | fin (q : ℚ)
deriving DecidableEq

/-- JS division of a finite numerator by a natural count. -/
def jsDivNat (a : ℚ) (n : ℕ) : JSNum :=
  if n = 0 then
    if a = 0 then JSNum.nan else if 0 < a then JSNum.posInf else JSNum.negInf
  else JSNum.fin (a / n)

/-- The observable output of formatCurrency: the em-dash placeholder or a
formatted amount. -/
inductive CurrencyDisplay where
  | dash
  | amount (v : JSNum)
deriving DecidableEq

/-- formatCurrency: undefined, null and NaN inputs all render the em-dash
placeholder; everything else is formatted as an amount. -/
def formatCurrency : Option JSNum → CurrencyDisplay
  | none => CurrencyDisplay.dash
  | some JSNum.nan => CurrencyDisplay.dash
  | some v => CurrencyDisplay.amount v

/-- overallStats.totalRetail: sum of preferred retail values, absent as 0. -/
def totalRetail (sets : List LegoSet) : ℚ :=
  sets.foldl (fun sum s => sum + (preferredRetail s).getD 0) 0

/-- The Average Price / Set display:
formatCurrency(overallStats.totalRetail / sets.length). -/
def averagePriceDisplay (sets : List LegoSet) : CurrencyDisplay :=
  formatCurrency (some (jsDivNat (totalRetail sets) sets.length))

/-- The members of one aggregation group: the records whose group key is k. -/
def groupMembers (k : String) (sets : List LegoSet) : List LegoSet :=
  sets.filter fun s => groupKey s == k

/-- The total member count recorded in the theme map. -/
def sumSets (m : List (String × ThemeStat)) : ℕ :=
  (m.map fun e => e.2.sets).sum

/-- A placeholder record with every optional field absent, used to build
the concrete examples below. -/
def blankSet : LegoSet :=
  { id := "", name := "", number := "", variant := "", theme := ""
    subtheme := none, themeGroup := none, category := none
    availability := none, packaging := none, pieces := none
    minifigsCount := 0, minifigs := [], yearFrom := 0
    retailPrice := { us := none, uk := none, ca := none, de := none }
    bricklink := { new := none, used := none }
    skus := { us := none, eu := none, ean := none, upc := none }
    dimensions := { width := none, height := none, depth := none, weight := none }
    image := none, thumb := none }

/-- Record A of the spec example: theme Space, retail uk 50, year 2020. -/
def demoA : LegoSet :=
  { blankSet with id := "A", name := "Space Cruiser", number := "001"
                  theme := "Space", yearFrom := 2020
                  retailPrice := { us := none, uk := some 50, ca := none, de := none } }

/-- Record B of the spec example: theme Space, retail uk null us 40,
year 2018. -/
def demoB : LegoSet :=
  { blankSet with id := "B", name := "Space Base", number := "002"
                  theme := "Space", yearFrom := 2018
                  retailPrice := { us := some 40, uk := none, ca := none, de := none } }

/-- Record C of the spec example: theme Castle, retail uk 0, year 2022. -/
def demoC : LegoSet :=
  { blankSet with id := "C", name := "Castle Keep", number := "003"
                  theme := "Castle", yearFrom := 2022
                  retailPrice := { us := none, uk := some 0, ca := none, de := none } }

/-- The three-record data set of the spec example. -/
def demoSets : List LegoSet := [demoA, demoB, demoC]

/-- A record with an empty theme name, grouped under the reserved key. -/
def demoMisc : LegoSet :=
  { blankSet with id := "M", name := "Mystery Box", number := "999" }

/-- Inserting an element is a permutation of pushing it to the front. -/
theorem insertBy_perm {α : Type} (le : α → α → Bool) (x : α) (l : List α) :
    (insertBy le x l).Perm (x :: l) := by
  induction l with
  | nil => simp [insertBy]
  | cons y ys ih =>
    unfold insertBy
    by_cases h : le x y
    · simp [h]
    · simp only [h, Bool.false_eq_true, if_false]
      exact (ih.cons y).trans (List.Perm.swap x y ys)

/-- The stable sort permutes its input. -/
theorem jsSortBy_perm {α : Type} (le : α → α → Bool) (l : List α) :
    (jsSortBy le l).Perm l := by
  induction l with
  | nil => simp [jsSortBy]
  | cons x xs ih =>
    exact (insertBy_perm le x (jsSortBy le xs)).trans (ih.cons x)

/-- Inserting into a list that is pairwise ordered by a total transitive
boolean relation keeps it pairwise ordered. -/
theorem insertBy_pairwise {α : Type} (le : α → α → Bool)
    (htot : ∀ a b, le a b = true ∨ le b a = true)
    (htrans : ∀ a b c, le a b = true → le b c = true → le a c = true)
    (x : α) (l : List α) (hl : l.Pairwise (fun a b => le a b = true)) :
    (insertBy le x l).Pairwise (fun a b => le a b = true) := by
  induction l with
  | nil => simp [insertBy]
  | cons y ys ih =>
    rcases List.pairwise_cons.mp hl with ⟨hy, hys⟩
    unfold insertBy
    by_cases h : le x y
    · simp only [h, if_true]
      refine List.pairwise_cons.mpr ⟨?_, hl⟩
      intro b hb
      rcases List.mem_cons.mp hb with hb | hb
      · exact hb ▸ h
      · exact htrans x y b h (hy b hb)
    · simp only [h, Bool.false_eq_true, if_false]
      refine List.pairwise_cons.mpr ⟨?_, ih hys⟩
      intro b hb
      have hb' : b ∈ x :: ys := (insertBy_perm le x ys).mem_iff.mp hb
      rcases List.mem_cons.mp hb' with hb' | hb'
      · rw [hb']
        rcases htot x y with hxy | hyx
        · exact absurd hxy h
        · exact hyx
      · exact hy b hb'

/-- The stable sort output is pairwise ordered. -/
theorem jsSortBy_pairwise {α : Type} (le : α → α → Bool)
    (htot : ∀ a b, le a b = true ∨ le b a = true)
    (htrans : ∀ a b c, le a b = true → le b c = true → le a c = true)
    (l : List α) :
    (jsSortBy le l).Pairwise (fun a b => le a b = true) := by
  induction l with
  | nil => simp [jsSortBy]
  | cons x xs ih => exact insertBy_pairwise le htot htrans x _ ih

/-- Sorting a list that is already pairwise ordered is the identity. -/
theorem jsSortBy_eq_of_pairwise {α : Type} (le : α → α → Bool)
    (l : List α) (hl : l.Pairwise (fun a b => le a b = true)) :
    jsSortBy le l = l := by
  induction l with
  | nil => rfl
  | cons x xs ih =>
    rcases List.pairwise_cons.mp hl with ⟨hx, hxs⟩
    show insertBy le x (jsSortBy le xs) = x :: xs
    rw [ih hxs]
    cases xs with
    | nil => rfl
    | cons y ys => simp [insertBy, hx y (List.mem_cons_self y ys)]

/-- Sorting with a total transitive boolean relation is idempotent. -/
theorem jsSortBy_idem {α : Type} (le : α → α → Bool)
    (htot : ∀ a b, le a b = true ∨ le b a = true)
    (htrans : ∀ a b c, le a b = true → le b c = true → le a c = true)
    (l : List α) :
    jsSortBy le (jsSortBy le l) = jsSortBy le l :=
  jsSortBy_eq_of_pairwise le _ (jsSortBy_pairwise le htot htrans l)

/-- Filtering by a predicate under which all elements tie commutes with
insertion: stability of the insertion step. -/
theorem insertBy_filter {α : Type} (le : α → α → Bool) (q : α → Bool)
    (hq : ∀ a b, q a = true → q b = true → le a b = true)
    (x : α) (l : List α) :
    (insertBy le x l).filter q =
      if q x then x :: l.filter q else l.filter q := by
  induction l with
  | nil => simp [insertBy, List.filter_cons]
  | cons y ys ih =>
    unfold insertBy
    by_cases h : le x y
    · simp only [h, if_true]
      exact List.filter_cons
    · simp only [h, Bool.false_eq_true, if_false]
      rw [List.filter_cons, List.filter_cons, ih]
      by_cases hqx : q x
      · have hqy : ¬ q y = true := fun hqy => h (hq x y hqx hqy)
        simp [hqx, hqy]
      · simp [hqx]

/-- Stability of the sort: the subsequence of elements tying under a
predicate is unchanged by sorting. -/
theorem jsSortBy_filter {α : Type} (le : α → α → Bool) (q : α → Bool)
    (hq : ∀ a b, q a = true → q b = true → le a b = true)
    (l : List α) :
    (jsSortBy le l).filter q = l.filter q := by
  induction l with
  | nil => rfl
  | cons x xs ih =>
    show (insertBy le x (jsSortBy le xs)).filter q = _
    rw [insertBy_filter le q hq, ih, List.filter_cons]

/-- Evaluation of the aggregator on the three-record example data set. -/
theorem demo_stats_eval :
    computeCategoryStats demoSets =
      [{ theme := "Space", sets := 2, value := 90
         earliestYear := 2018, latestYear := 2020 },
       { theme := "Castle", sets := 1, value := 0
         earliestYear := 2022, latestYear := 2022 }] := by
  have h1 : (50 : ℚ) + 40 = 90 := by norm_num
  have h2 : (0 : ℚ) ≤ 90 := by norm_num
  simp [computeCategoryStats, discoveryStats, statMap, statStep, mapGet,
    mapSet, addSet, initStat, groupKey, fixEarliest, jsSortBy, insertBy,
    preferredRetail, yearFromSet, demoSets, demoA, demoB, demoC, blankSet,
    maxSafeInteger, min_def, max_def, h1, h2]

/-- C1: on the three-record example, computeCategoryStats returns exactly
Space (sets 2, value 90 via the us fallback for B, years 2018 to 2020)
and then Castle (sets 1, value 0, years 2022 to 2022), in that order. -/
theorem computeCategoryStats_three_record_example :
    computeCategoryStats demoSets =
      [{ theme := "Space", sets := 2, value := 90
         earliestYear := 2018, latestYear := 2020 },
       { theme := "Castle", sets := 1, value := 0
         earliestYear := 2022, latestYear := 2022 }] :=
  demo_stats_eval

/-- C3: on the empty record set the Average Price / Set display is the
em-dash placeholder, not a NaN division artifact. -/
theorem averagePrice_empty_reports_dash :
    averagePriceDisplay [] = CurrencyDisplay.dash := by
  decide

/-- Getting the key just set returns the value just set. -/
theorem mapGet_mapSet_self (k : String) (v : ThemeStat)
    (m : List (String × ThemeStat)) : mapGet k (mapSet k v m) = some v := by
  induction m with
  | nil => simp [mapGet, mapSet]
  | cons e rest ih =>
    by_cases h : e.1 = k
    · simp [mapSet, mapGet, h]
    · simp [mapSet, mapGet, h, ih]

/-- Setting one key leaves lookups of another key unchanged. -/
theorem mapGet_mapSet_ne (k k' : String) (hne : k' ≠ k) (v : ThemeStat)
    (m : List (String × ThemeStat)) : mapGet k (mapSet k' v m) = mapGet k m := by
  induction m with
  | nil => simp [mapGet, mapSet, hne]
  | cons e rest ih =>
    obtain ⟨a, b⟩ := e
    have hne' : k ≠ k' := Ne.symm hne
    by_cases h : a = k'
    · simp [mapSet, mapGet, h, hne]
    · by_cases h2 : a = k <;> simp [mapSet, mapGet, h, h2, ih, hne']

/-- Setting a present key keeps the key sequence unchanged. -/
theorem mapSet_keys_of_some (k : String) (v w : ThemeStat)
    (m : List (String × ThemeStat)) (h : mapGet k m = some w) :
    (mapSet k v m).map Prod.fst = m.map Prod.fst := by
  induction m with
  | nil => simp [mapGet] at h
  | cons e rest ih =>
    by_cases he : e.1 = k
    · simp [mapSet, he]
    · simp only [mapGet, he, if_false] at h
      simp [mapSet, he, ih h]

/-- Setting an absent key appends it to the key sequence. -/
theorem mapSet_keys_of_none (k : String) (v : ThemeStat)
    (m : List (String × ThemeStat)) (h : mapGet k m = none) :
    (mapSet k v m).map Prod.fst = m.map Prod.fst ++ [k] := by
  induction m with
  | nil => simp [mapSet]
  | cons e rest ih =>
    by_cases he : e.1 = k
    · simp [mapGet, he] at h
    · simp only [mapGet, he, if_false] at h
      simp [mapSet, he, ih h]

/-- A lookup misses exactly when the key is absent from the key sequence. -/
theorem mapGet_eq_none_iff (k : String) (m : List (String × ThemeStat)) :
    mapGet k m = none ↔ k ∉ m.map Prod.fst := by
  induction m with
  | nil => simp [mapGet]
  | cons e rest ih =>
    obtain ⟨a, b⟩ := e
    by_cases he : a = k
    · simp [mapGet, he]
    · have hne : k ≠ a := fun h => he h.symm
      simp [mapGet, he, ih, hne]

/-- A successful lookup produces an entry of the list. -/
theorem mapGet_some_mem (k : String) (v : ThemeStat)
    (m : List (String × ThemeStat)) (h : mapGet k m = some v) : (k, v) ∈ m := by
  induction m with
  | nil => simp [mapGet] at h
  | cons e rest ih =>
    obtain ⟨a, b⟩ := e
    by_cases he : a = k
    · simp only [mapGet, he, if_true, Option.some.injEq] at h
      rw [← he, ← h]
      exact List.mem_cons_self (a, b) rest
    · simp only [mapGet, he, if_false] at h
      exact List.mem_cons_of_mem (a, b) (ih h)

/-- With pairwise distinct keys, every entry is found by lookup. -/
theorem mem_mapGet (k : String) (v : ThemeStat)
    (m : List (String × ThemeStat)) (hnd : (m.map Prod.fst).Nodup)
    (h : (k, v) ∈ m) : mapGet k m = some v := by
  induction m with
  | nil => simp at h
  | cons e rest ih =>
    rcases List.mem_cons.mp h with h | h
    · rw [← h]
      simp [mapGet]
    · have hk : k ∈ rest.map Prod.fst := List.mem_map.mpr ⟨(k, v), h, rfl⟩
      have he : e.1 ≠ k := by
        intro hek
        exact (List.nodup_cons.mp hnd).1 (hek ▸ hk)
      simp only [mapGet, he, if_false]
      exact ih (List.nodup_cons.mp hnd).2 h

/-- Replacing the value at a present key exchanges its member count in the
total. -/
theorem sumSets_mapSet_some (k : String) (v w : ThemeStat)
    (m : List (String × ThemeStat)) (h : mapGet k m = some w) :
    sumSets (mapSet k v m) + w.sets = sumSets m + v.sets := by
  induction m with
  | nil => simp [mapGet] at h
  | cons e rest ih =>
    by_cases he : e.1 = k
    · simp only [mapGet, he, if_true, Option.some.injEq] at h
      simp only [mapSet, he, if_true, sumSets, List.map_cons, List.sum_cons]
      rw [← h]
      omega
    · simp only [mapGet, he, if_false] at h
      simp only [mapSet, he, if_false, sumSets, List.map_cons, List.sum_cons]
      have := ih h
      simp only [sumSets] at this
      omega

/-- Appending a fresh key adds its member count to the total. -/
theorem sumSets_mapSet_none (k : String) (v : ThemeStat)
    (m : List (String × ThemeStat)) (h : mapGet k m = none) :
    sumSets (mapSet k v m) = sumSets m + v.sets := by
  induction m with
  | nil => simp [mapSet, sumSets]
  | cons e rest ih =>
    by_cases he : e.1 = k
    · simp [mapGet, he] at h
    · simp only [mapGet, he, if_false] at h
      simp only [mapSet, he, if_false, sumSets, List.map_cons, List.sum_cons]
      have := ih h
      simp only [sumSets] at this
      omega

/-- One aggregation step always increments the member count by one. -/
theorem addSet_sets (st : ThemeStat) (s : LegoSet) :
    (addSet st s).sets = st.sets + 1 := by
  unfold addSet
  by_cases h : yearFromSet s = 0 <;> simp [h]

/-- One aggregation step never changes the theme name. -/
theorem addSet_theme (st : ThemeStat) (s : LegoSet) :
    (addSet st s).theme = st.theme := by
  unfold addSet
  by_cases h : yearFromSet s = 0 <;> simp [h]

/-- One loop iteration grows the total member count by one. -/
theorem sumSets_statStep (m : List (String × ThemeStat)) (s : LegoSet) :
    sumSets (statStep m s) = sumSets m + 1 := by
  unfold statStep
  cases h : mapGet (groupKey s) m with
  | none =>
    rw [sumSets_mapSet_none _ _ _ h]
    simp [h, addSet_sets, initStat]
  | some w =>
    simp only [Option.getD_some]
    have hsum := sumSets_mapSet_some (groupKey s) (addSet w s) w m h
    rw [addSet_sets] at hsum
    omega

/-- The folded theme map accounts every processed record exactly once. -/
theorem sumSets_foldl (l : List LegoSet) :
    ∀ m, sumSets (l.foldl statStep m) = sumSets m + l.length := by
  induction l with
  | nil => intro m; simp
  | cons s t ih =>
    intro m
    simp only [List.foldl_cons, List.length_cons]
    rw [ih (statStep m s), sumSets_statStep]
    omega

/-- Lookups in the folded theme map are the per-group fold over exactly
the group members, a fresh accumulator being created at first discovery. -/
theorem mapGet_foldl (l : List LegoSet) (k : String) :
    ∀ m, mapGet k (l.foldl statStep m) =
      if groupMembers k l = [] then mapGet k m
      else some ((groupMembers k l).foldl addSet
        (((mapGet k m).getD (initStat k)))) := by
  induction l with
  | nil => intro m; simp [groupMembers]
  | cons s t ih =>
    intro m
    simp only [List.foldl_cons]
    rw [ih (statStep m s)]
    by_cases hk : groupKey s = k
    · have hgm : groupMembers k (s :: t) = s :: groupMembers k t := by
        simp [groupMembers, List.filter_cons, hk]
      have hget : mapGet k (statStep m s) =
          some (addSet ((mapGet k m).getD (initStat k)) s) := by
        unfold statStep
        rw [hk, mapGet_mapSet_self]
      rw [hgm, hget]
      by_cases ht : groupMembers k t = []
      · simp [ht]
      · simp [ht]
  -- the fresh accumulator threaded into the tail fold is the head step
    · have hgm : groupMembers k (s :: t) = groupMembers k t := by
        simp [groupMembers, List.filter_cons, hk]
      have hget : mapGet k (statStep m s) = mapGet k m := by
        unfold statStep
        exact mapGet_mapSet_ne k (groupKey s) hk _ m
      rw [hgm, hget]

/-- The key sequence of the folded theme map has no duplicates. -/
theorem statMap_keys_nodup (l : List LegoSet) :
    ∀ m, (m.map Prod.fst).Nodup → ((l.foldl statStep m).map Prod.fst).Nodup := by
  induction l with
  | nil => intro m hm; simpa using hm
  | cons s t ih =>
    intro m hm
    simp only [List.foldl_cons]
    refine ih (statStep m s) ?_
    unfold statStep
    cases h : mapGet (groupKey s) m with
    | some w => rw [mapSet_keys_of_some _ _ w _ h]; exact hm
    | none =>
      rw [mapSet_keys_of_none _ _ _ h]
      have hk : groupKey s ∉ m.map Prod.fst := (mapGet_eq_none_iff _ m).mp h
      simp [List.nodup_append, hm, hk]

/-- The earliestYear field after one aggregation step. -/
theorem addSet_earliest (st : ThemeStat) (s : LegoSet) :
    (addSet st s).earliestYear =
      if yearFromSet s = 0 then st.earliestYear
      else min st.earliestYear (yearFromSet s) := by
  unfold addSet
  by_cases h : yearFromSet s = 0 <;> simp [h]

/-- The latestYear field after one aggregation step. -/
theorem addSet_latest (st : ThemeStat) (s : LegoSet) :
    (addSet st s).latestYear =
      if yearFromSet s = 0 then st.latestYear
      else max st.latestYear (yearFromSet s) := by
  unfold addSet
  by_cases h : yearFromSet s = 0 <;> simp [h]

/-- The per-group fold never changes the theme name. -/
theorem foldl_addSet_theme (g : List LegoSet) :
    ∀ st, (g.foldl addSet st).theme = st.theme := by
  induction g with
  | nil => intro st; rfl
  | cons s t ih =>
    intro st
    simp only [List.foldl_cons]
    rw [ih, addSet_theme]

/-- The per-group fold counts exactly its members. -/
theorem foldl_addSet_sets (g : List LegoSet) :
    ∀ st, (g.foldl addSet st).sets = st.sets + g.length := by
  induction g with
  | nil => intro st; simp
  | cons s t ih =>
    intro st
    simp only [List.foldl_cons, List.length_cons]
    rw [ih, addSet_sets]
    omega

/-- The year-range invariant of the aggregation loop: the accumulator is
either untouched (MAX_SAFE_INTEGER paired with 0) or holds a positive
earliest year bounded by the latest year. -/
theorem foldl_addSet_yearInv (g : List LegoSet) : ∀ st : ThemeStat,
    ((st.earliestYear = maxSafeInteger ∧ st.latestYear = 0) ∨
      (0 < st.earliestYear ∧ st.earliestYear ≤ st.latestYear)) →
    (((g.foldl addSet st).earliestYear = maxSafeInteger ∧
        (g.foldl addSet st).latestYear = 0) ∨
      (0 < (g.foldl addSet st).earliestYear ∧
        (g.foldl addSet st).earliestYear ≤ (g.foldl addSet st).latestYear)) := by
  induction g with
  | nil => intro st h; simpa using h
  | cons s t ih =>
    intro st h
    simp only [List.foldl_cons]
    apply ih
    by_cases hy : yearFromSet s = 0
    · rw [addSet_earliest, addSet_latest]
      simpa [hy] using h
    · rw [addSet_earliest, addSet_latest]
      simp only [hy, if_false]
      right
      constructor
      · rcases h with ⟨h1, _⟩ | ⟨h1, _⟩
        · rw [h1]
          exact lt_min (by norm_num [maxSafeInteger]) (Nat.pos_of_ne_zero hy)
        · exact lt_min h1 (Nat.pos_of_ne_zero hy)
      · exact le_trans (min_le_right _ _) (le_max_right _ _)

/-- When no member has a truthy year, the fold leaves both year
accumulators untouched. -/
theorem foldl_addSet_year_unchanged (g : List LegoSet) :
    (∀ r ∈ g, yearFromSet r = 0) → ∀ st : ThemeStat,
    (g.foldl addSet st).earliestYear = st.earliestYear ∧
    (g.foldl addSet st).latestYear = st.latestYear := by
  induction g with
  | nil => intro _ st; exact ⟨rfl, rfl⟩
  | cons s t ih =>
    intro h st
    simp only [List.foldl_cons]
    have hs : yearFromSet s = 0 := h s (List.mem_cons_self s t)
    have ht : ∀ r ∈ t, yearFromSet r = 0 :=
      fun r hr => h r (List.mem_cons_of_mem s hr)
    rcases ih ht (addSet st s) with ⟨h1, h2⟩
    rw [h1, h2, addSet_earliest, addSet_latest]
    simp [hs]

/-- fixEarliest never changes the theme name. -/
theorem fixEarliest_theme (st : ThemeStat) : (fixEarliest st).theme = st.theme := by
  unfold fixEarliest
  split <;> rfl

/-- fixEarliest never changes the member count. -/
theorem fixEarliest_sets (st : ThemeStat) : (fixEarliest st).sets = st.sets := by
  unfold fixEarliest
  split <;> rfl

/-- The folded theme map looks up to exactly the per-group fold over the
group members. -/
theorem mapGet_statMap (sets : List LegoSet) (k : String) :
    mapGet k (statMap sets) =
      if groupMembers k sets = [] then none
      else some ((groupMembers k sets).foldl addSet (initStat k)) := by
  have h := mapGet_foldl sets k []
  simpa [statMap, mapGet] using h

/-- Every stat produced by the aggregator is the fixed-up per-group fold
of a non-empty group. -/
theorem mem_computeCategoryStats (sets : List LegoSet) (stat : ThemeStat)
    (h : stat ∈ computeCategoryStats sets) :
    ∃ k, groupMembers k sets ≠ [] ∧
      stat = fixEarliest ((groupMembers k sets).foldl addSet (initStat k)) := by
  have h1 : stat ∈ discoveryStats sets := by
    have hp := jsSortBy_perm (fun a b : ThemeStat => decide (b.value ≤ a.value))
      (discoveryStats sets)
    exact hp.mem_iff.mp h
  simp only [discoveryStats, List.map_map, List.mem_map] at h1
  obtain ⟨e, he, hfix⟩ := h1
  have hnd : ((statMap sets).map Prod.fst).Nodup :=
    statMap_keys_nodup sets [] (by simp)
  have hget : mapGet e.1 (statMap sets) = some e.2 :=
    mem_mapGet e.1 e.2 _ hnd (by simpa using he)
  rw [mapGet_statMap] at hget
  by_cases hgm : groupMembers e.1 sets = []
  · simp [hgm] at hget
  · simp only [hgm, if_false, Option.some.injEq] at hget
    refine ⟨e.1, hgm, ?_⟩
    rw [← hfix]
    simp only [Function.comp]
    rw [hget]

/-- C4: the aggregator output is ordered by descending summed value, and
categories tying on value keep their group-discovery order (the filter of
each value class is unchanged by the sort). -/
theorem categoryStats_order_spec (sets : List LegoSet) :
    (computeCategoryStats sets).Pairwise (fun a b => b.value ≤ a.value) ∧
    ∀ v : ℚ, (computeCategoryStats sets).filter (fun s => s.value == v) =
      (discoveryStats sets).filter (fun s => s.value == v) := by
  constructor
  · have hp := jsSortBy_pairwise (fun a b : ThemeStat => decide (b.value ≤ a.value))
      (fun a b => by
        rcases le_total b.value a.value with h | h
        · exact Or.inl (decide_eq_true h)
        · exact Or.inr (decide_eq_true h))
      (fun a b c hab hbc =>
        decide_eq_true (le_trans (of_decide_eq_true hbc) (of_decide_eq_true hab)))
      (discoveryStats sets)
    exact hp.imp (fun h => of_decide_eq_true h)
  · intro v
    apply jsSortBy_filter
    intro a b ha hb
    have ha' : a.value = v := by simpa using ha
    have hb' : b.value = v := by simpa using hb
    exact decide_eq_true (le_of_eq (hb'.trans ha'.symm))

/-- C5: the member counts of the aggregator output sum to the number of
input records; every record lands in exactly one category group. -/
theorem categoryStats_sets_sum (sets : List LegoSet) :
    ((computeCategoryStats sets).map ThemeStat.sets).sum = sets.length := by
  have hperm : (computeCategoryStats sets).Perm (discoveryStats sets) :=
    jsSortBy_perm (fun a b : ThemeStat => decide (b.value ≤ a.value))
      (discoveryStats sets)
  rw [(hperm.map ThemeStat.sets).sum_eq]
  have hdisc : ((discoveryStats sets).map ThemeStat.sets).sum = sumSets (statMap sets) := by
    simp only [discoveryStats, List.map_map, sumSets]
    congr 1
    apply List.map_congr_left
    intro e _
    simp only [Function.comp_apply]
    exact fixEarliest_sets e.2
  rw [hdisc]
  have h := sumSets_foldl sets []
  simpa [sumSets, statMap] using h

/-- C7: sortRecords is idempotent for each of the three sort keys, since
each comparator is a total preorder and the sort is stable. -/
theorem sortRecords_idempotent (records : List LegoSet) (key : SortOption) :
    sortRecords (sortRecords records key) key = sortRecords records key := by
  cases key with
  | year =>
    simp only [sortRecords]
    exact jsSortBy_idem
      (fun a b : LegoSet => decide (yearFromSet b ≤ yearFromSet a))
      (fun a b => by
        rcases le_total (yearFromSet b) (yearFromSet a) with h | h
        · exact Or.inl (decide_eq_true h)
        · exact Or.inr (decide_eq_true h))
      (fun a b c hab hbc =>
        decide_eq_true (le_trans (of_decide_eq_true hbc) (of_decide_eq_true hab)))
      records
  | name =>
    simp only [sortRecords]
    exact jsSortBy_idem
      (fun a b : LegoSet => decide (nameKey a ≤ nameKey b))
      (fun a b => by
        rcases le_total (nameKey a) (nameKey b) with h | h
        · exact Or.inl (decide_eq_true h)
        · exact Or.inr (decide_eq_true h))
      (fun a b c hab hbc =>
        decide_eq_true (le_trans (of_decide_eq_true hab) (of_decide_eq_true hbc)))
      records
  | retail =>
    simp only [sortRecords]
    exact jsSortBy_idem
      (fun a b : LegoSet => decide (retailRank b ≤ retailRank a))
      (fun a b => by
        rcases le_total (retailRank b) (retailRank a) with h | h
        · exact Or.inl (decide_eq_true h)
        · exact Or.inr (decide_eq_true h))
      (fun a b c hab hbc =>
        decide_eq_true (le_trans (of_decide_eq_true hbc) (of_decide_eq_true hab)))
      records

/-- C6: every aggregator stat has earliestYear at most latestYear whenever
both are non-zero, and a category none of whose members has a positive
release year reports the 0 sentinel for both year fields. -/
theorem categoryStats_year_invariant (sets : List LegoSet) (stat : ThemeStat)
    (hmem : stat ∈ computeCategoryStats sets) :
    (stat.earliestYear ≠ 0 → stat.latestYear ≠ 0 →
      stat.earliestYear ≤ stat.latestYear) ∧
    ((∀ r ∈ sets, groupKey r = stat.theme → yearFromSet r = 0) →
      stat.earliestYear = 0 ∧ stat.latestYear = 0) := by
  obtain ⟨k, hne, hstat⟩ := mem_computeCategoryStats sets stat hmem
  have htheme : stat.theme = k := by
    rw [hstat, fixEarliest_theme, foldl_addSet_theme]
    rfl
  constructor
  · intro he hl
    by_cases hms :
        ((groupMembers k sets).foldl addSet (initStat k)).earliestYear = maxSafeInteger
    · exfalso
      apply he
      rw [hstat]
      simp [fixEarliest, hms]
    · have hinv := foldl_addSet_yearInv (groupMembers k sets) (initStat k)
        (Or.inl ⟨rfl, rfl⟩)
      rcases hinv with ⟨h1, _⟩ | ⟨_, h2⟩
      · exact absurd h1 hms
      · rw [hstat]
        simpa [fixEarliest, hms] using h2
  · intro hz
    have hz' : ∀ r ∈ groupMembers k sets, yearFromSet r = 0 := by
      intro r hrg
      rcases List.mem_filter.mp hrg with ⟨hrs, hrk⟩
      exact hz r hrs (by rw [htheme]; exact beq_iff_eq.mp hrk)
    have hun := foldl_addSet_year_unchanged (groupMembers k sets) hz' (initStat k)
    rw [hstat]
    have hini : ((groupMembers k sets).foldl addSet (initStat k)).earliestYear =
        maxSafeInteger := by
      rw [hun.1]
      rfl
    have hla : ((groupMembers k sets).foldl addSet (initStat k)).latestYear = 0 := by
      rw [hun.2]
      rfl
    simp [fixEarliest, hini, hla]

/-- C6 witness: on the three-record example, the Space stat is produced by
the aggregator and its year range 2018 to 2020 satisfies the invariant. -/
theorem categoryStats_year_invariant_witness :
    ThemeStat.mk "Space" 2 90 2018 2020 ∈ computeCategoryStats demoSets ∧
    (2018 : ℕ) ≤ 2020 := by
  have hmem : ThemeStat.mk "Space" 2 90 2018 2020 ∈ computeCategoryStats demoSets := by
    rw [demo_stats_eval]
    exact List.mem_cons_self _ _
  exact ⟨hmem, (categoryStats_year_invariant demoSets _ hmem).1
    (by decide) (by decide)⟩

/-- C9: the unfiltered (sentinel) result contains every record of any
category-restricted result with the same search text. -/
theorem filterRecords_allThemes_superset (sets : List LegoSet)
    (text cat : String) (r : LegoSet) (h : r ∈ filterRecords sets cat text) :
    r ∈ filterRecords sets "All Themes" text := by
  rcases List.mem_filter.mp h with ⟨hr, hp⟩
  simp only [Bool.and_eq_true] at hp
  refine List.mem_filter.mpr ⟨hr, ?_⟩
  simp only [Bool.and_eq_true]
  exact ⟨by simp, hp.2⟩

/-- C9 witness: record A passes the Space-restricted filter, and hence the
sentinel-filtered view as well. -/
theorem filterRecords_allThemes_superset_witness :
    demoA ∈ filterRecords demoSets "Space" "" ∧
    demoA ∈ filterRecords demoSets "All Themes" "" :=
  ⟨by decide, filterRecords_allThemes_superset demoSets "" "Space" demoA (by decide)⟩

/-- C2 counterexample: a search text of two spaces consists only of
whitespace, yet with the sentinel category filter it excludes record A,
because the filter only bypasses the text predicate for the empty string
and the haystack has no double space. -/
theorem filterRecords_whitespace_counterexample :
    ("  ").data.all Char.isWhitespace = true ∧
    filterRecords [demoA] "All Themes" "  " = [] := by
  constructor
  · decide
  · decide

/-- C2 amended: with an empty search text the filter applies exactly the
category predicate, and with the sentinel category filter and empty search
text every record is returned. -/
theorem filterRecords_empty_search_passthrough (sets : List LegoSet)
    (cat : String) :
    filterRecords sets cat "" =
      sets.filter (fun s => cat == "All Themes" || s.theme == cat) ∧
    filterRecords sets "All Themes" "" = sets := by
  constructor
  · unfold filterRecords
    apply List.filter_congr
    intro s _
    simp
  · unfold filterRecords
    rw [List.filter_eq_self]
    intro s _
    simp

/-- C8: suggestions are empty when the search trims to the empty string,
and otherwise are exactly the first at most 6 records of the full data
set, in dataset order, matching the case-insensitive substring predicate
(the category filter plays no role since suggest never receives it). -/
theorem suggest_spec (sets : List LegoSet) (search : String) :
    (trimWs search = "" → suggest sets search = []) ∧
    (trimWs search ≠ "" →
      suggest sets search = (sets.filter (matchesText search)).take 6 ∧
      List.Sublist (suggest sets search) sets ∧
      (suggest sets search).length ≤ 6 ∧
      ∀ s ∈ suggest sets search, matchesText search s = true) := by
  constructor
  · intro h
    simp [suggest, h]
  · intro h
    have heq : suggest sets search = (sets.filter (matchesText search)).take 6 := by
      unfold suggest
      rw [if_neg]
      simpa using h
    refine ⟨heq, ?_, ?_, ?_⟩
    · rw [heq]
      exact (List.take_sublist _ _).trans (List.filter_sublist _)
    · rw [heq, List.length_take]
      exact min_le_left _ _
    · intro s hs
      rw [heq] at hs
      have hsf := (List.take_sublist 6 _).subset hs
      exact (List.mem_filter.mp hsf).2

/-- C8 witness: the search text cas does not trim to empty, so the
suggestions on the example data are the first matches in dataset order. -/
theorem suggest_spec_witness :
    suggest demoSets "cas" = (demoSets.filter (matchesText "cas")).take 6 :=
  ((suggest_spec demoSets "cas").2 (by decide)).1

/-- With the reserved key as category filter and an empty search, the
filter keeps exactly the records whose stored theme is literally Misc. -/
theorem filterRecords_misc_empty (sets : List LegoSet) :
    filterRecords sets "Misc" "" = sets.filter (fun s => s.theme == "Misc") := by
  unfold filterRecords
  apply List.filter_congr
  intro s _
  simp

/-- Counting split for the reserved group: its key collects both the
empty-theme records and the records whose theme is literally Misc. -/
theorem countP_groupKey_misc (sets : List LegoSet) :
    sets.countP (fun s => groupKey s == "Misc") =
      sets.countP (fun s => s.theme == "") +
        sets.countP (fun s => s.theme == "Misc") := by
  induction sets with
  | nil => simp
  | cons s t ih =>
    rw [List.countP_cons, List.countP_cons, List.countP_cons, ih]
    by_cases h1 : s.theme = ""
    · have hk : groupKey s = "Misc" := by simp [groupKey, h1]
      have h2 : s.theme ≠ "Misc" := by rw [h1]; simp
      simp [hk, h1, h2]
      omega
    · by_cases h2 : s.theme = "Misc"
      · have hk : groupKey s = "Misc" := by simp [groupKey, h1, h2]
        simp [hk, h1, h2]
        omega
      · have hk : groupKey s = s.theme := by simp [groupKey, h1]
        simp [hk, h1, h2]

/-- C10: an empty-theme record is aggregated under the reserved key Misc
but excluded by the category filter for Misc (which compares the raw
stored theme), so the Misc filter result is strictly smaller than the
member count of the Misc stat. -/
theorem misc_group_filter_mismatch (sets : List LegoSet) (r : LegoSet)
    (hr : r ∈ sets) (hth : r.theme = "") :
    r ∉ filterRecords sets "Misc" "" ∧
    ∃ stat, stat ∈ computeCategoryStats sets ∧ stat.theme = "Misc" ∧
      (filterRecords sets "Misc" "").length < stat.sets := by
  have hkey : groupKey r = "Misc" := by simp [groupKey, hth]
  constructor
  · intro hmem
    rw [filterRecords_misc_empty] at hmem
    have h2 := (List.mem_filter.mp hmem).2
    rw [hth] at h2
    simp at h2
  · have hmemg : r ∈ groupMembers "Misc" sets :=
      List.mem_filter.mpr ⟨hr, by simp [hkey]⟩
    have hne : groupMembers "Misc" sets ≠ [] := List.ne_nil_of_mem hmemg
    have hget : mapGet "Misc" (statMap sets) =
        some ((groupMembers "Misc" sets).foldl addSet (initStat "Misc")) := by
      rw [mapGet_statMap]
      simp [hne]
    refine ⟨fixEarliest ((groupMembers "Misc" sets).foldl addSet (initStat "Misc")),
      ?_, ?_, ?_⟩
    · have hmem1 : ("Misc", (groupMembers "Misc" sets).foldl addSet (initStat "Misc")) ∈
          statMap sets := mapGet_some_mem _ _ _ hget
      have hmem2 : fixEarliest ((groupMembers "Misc" sets).foldl addSet
          (initStat "Misc")) ∈ discoveryStats sets := by
        simp only [discoveryStats, List.map_map]
        exact List.mem_map.mpr ⟨_, hmem1, rfl⟩
      have hp := jsSortBy_perm (fun a b : ThemeStat => decide (b.value ≤ a.value))
        (discoveryStats sets)
      exact hp.mem_iff.mpr hmem2
    · rw [fixEarliest_theme, foldl_addSet_theme]
      rfl
    · rw [fixEarliest_sets, foldl_addSet_sets]
      have hlen : (filterRecords sets "Misc" "").length =
          sets.countP (fun s => s.theme == "Misc") := by
        rw [filterRecords_misc_empty, ← List.countP_eq_length_filter]
      have hgm : (groupMembers "Misc" sets).length =
          sets.countP (fun s => groupKey s == "Misc") := by
        unfold groupMembers
        rw [← List.countP_eq_length_filter]
      have hpos : 0 < sets.countP (fun s => s.theme == "") :=
        List.countP_pos_iff.mpr ⟨r, hr, by simp [hth]⟩
      have hsplit := countP_groupKey_misc sets
      rw [hlen, hgm]
      simp only [initStat]
      omega

/-- C10 witness: the concrete empty-theme record is aggregated but not
returned when filtering by the reserved key. -/
theorem misc_group_filter_mismatch_witness :
    demoMisc ∈ [demoMisc] ∧ demoMisc ∉ filterRecords [demoMisc] "Misc" "" :=
  ⟨by decide, (misc_group_filter_mismatch [demoMisc] demoMisc (by decide) (by decide)).1⟩
